import Mathlib

/-!
Verification development for the react_viewer client.

This file gives a shallow embedding of the client-side streaming data
synchronization and field-to-visual mapping engine:

* `JVal` models decoded JSON values (the payloads produced by `JSON.parse`).
* `applySharedUpdate` models the `setSharedData` updater inside
  `handleMessage` in `src/App.tsx` (lines 133-166): the "append" branch and
  the spread-merge "replace" branch.
* `jsonParse` models `JSON.parse` on text frames (fuel-based recursive
  descent; it accepts the JSON grammar, modulo leniency on leading zeros,
  and fails on non-JSON text).
* `handleMessageShared` models the effect of one `onmessage` event on the
  `sharedData` state in `src/App.tsx` (lines 123-181), including the
  try/catch that turns a parse failure into `status = "error"`.
* `wscMessageHistoryStep` models the message-history effect of
  `handleMessage` in `src/components/WebSocketClient.tsx` (lines 20-30).
* `meshCellColor`, `sceneValueRange`, `sceneCells` model the scene
  projector in `src/components/Scene.tsx` (`MeshCell` lines 44-122 and
  `Scene` lines 124-199).

JavaScript numbers are modelled by exact rationals extended with the IEEE
special values NaN and the two infinities (`JNum`); the claims under
consideration never depend on double rounding.
-/

/-- Decoded JSON values. Objects are insertion-ordered association lists,
as produced by `JSON.parse` (duplicate keys collapse, last value wins,
first position kept). -/
inductive JVal where
  | null : JVal
  | bool : Bool → JVal
  | num : Rat → JVal
  | str : String → JVal
  | arr : List JVal → JVal
  | obj : List (String × JVal) → JVal

/-- Association-list lookup: the value of own property `k` (JS objects have
at most one entry per key, so first match is the match). -/
def alget {α : Type} : List (String × α) → String → Option α
  | [], _ => none
  | (k2, v) :: rest, k => if k2 = k then some v else alget rest k

/-- Association-list assignment, mirroring JS property assignment: an
existing key keeps its insertion position and gets the new value, a new
key is appended at the end. -/
def alset {α : Type} : List (String × α) → String → α → List (String × α)
  | [], k, v => [(k, v)]
  | (k2, v2) :: rest, k, v =>
    if k2 = k then (k2, v) :: rest else (k2, v2) :: alset rest k v

/-- JS truthiness of a value (`NaN` cannot arise from `JSON.parse`). -/
def truthy : JVal → Bool
  | .null => false
  | .bool b => b
  | .num q => decide (q ≠ 0)
  | .str s => decide (s ≠ "")
  | .arr _ => true
  | .obj _ => true

/-- Truthiness of a possibly-absent (`undefined`) value. -/
def truthyOpt : Option JVal → Bool
  | none => false
  | some v => truthy v

/-- The own enumerable properties contributed by spreading a value into an
object literal (`{...v}`): an object contributes its entries, a string its
index-keyed characters, an array its index-keyed elements, and primitives
contribute nothing. -/
def spreadProps : JVal → List (String × JVal)
  | .obj fs => fs
  | .str s => s.toList.enum.map (fun p => (toString p.1, JVal.str (String.mk [p.2])))
  | .arr xs => xs.enum.map (fun p => (toString p.1, p.2))
  | _ => []

/-- Spreading a possibly-`undefined` value (`{...undefined}` is empty). -/
def optSpreadProps : Option JVal → List (String × JVal)
  | none => []
  | some v => spreadProps v

/-- The object literal `\x7b...a, ...b\x7d`: the properties of `b` assigned,
in order, over the properties of `a`. -/
def spreadMerge (a b : List (String × JVal)) : List (String × JVal) :=
  b.foldl (fun acc kv => alset acc kv.1 kv.2) a

/-- JS property access `v.k` for the object case; on non-objects the named
properties read here (`type`, `field`, `value`) are `undefined`. -/
def jget : JVal → String → Option JVal
  | .obj fs, k => alget fs k
  | _, _ => none

/-- The test `data.type === 'append'`. -/
def isAppendType : Option JVal → Bool
  | some (.str s) => decide (s = "append")
  | _ => false

/-- Conversion of `data.field` to a property key. JS stringifies any value;
string keys (the only kind the protocol uses), `undefined`, `null` and
booleans are modelled, other stringifications are left as errors. -/
def propKeyE : Option JVal → Except String String
  | some (.str s) => .ok s
  | some .null => .ok "null"
  | some (.bool b) => .ok (cond b "true" "false")
  | none => .ok "undefined"
  | some (.num _) => .error "numeric property key not modelled"
  | some (.arr _) => .error "array property key not modelled"
  | some (.obj _) => .error "object property key not modelled"

/-- The `forEach` loop of the append branch (App.tsx lines 137-141): for
every key of the incoming payload whose value is an array, concatenate it
onto the existing entry, a falsy or absent entry counting as the empty
array. A truthy non-array existing entry is left as an error: on a
non-string value `.concat` would throw in JS (on a string it would
string-concatenate; that corner is not modelled and no claim reaches it).
`concatStep` is the assignment line 139, `appendKeys` the surrounding loop. -/
def concatStep (cur : Option JVal) (xs : List JVal) : Except String (List JVal) :=
  match cur with
  | some (.arr old) => .ok (old ++ xs)
  | some w => if truthy w then .error "concat on truthy non-array value" else .ok xs
  | none => .ok xs

def appendKeys : List (String × JVal) → List (String × JVal) → Except String (List (String × JVal))
  | updated, [] => .ok updated
  | updated, (k, v) :: rest =>
    match v with
    | .arr xs =>
      match concatStep (alget updated k) xs with
      | .ok newArr => appendKeys (alset updated k (.arr newArr)) rest
      | .error e => .error e
    | _ => appendKeys updated rest

/-- The `setSharedData` updater of `handleMessage` (App.tsx lines 133-166)
restricted to the `value` record. If `data.type` is `append` and the named
field's current value is truthy, array payload keys are concatenated onto
the field's entries; otherwise the field is overwritten with
`\x7b...prev.value[data.field], ...data.value\x7d` (shallow spread merge).
Property access on a `null` message and `Object.keys` of a nullish payload
are JS `TypeError`s, modelled as `Except.error`. -/
def applySharedUpdate (value : List (String × JVal)) (data : JVal) : Except String (List (String × JVal)) :=
  match data with
  | .null => .error "TypeError: property access on null"
  | _ =>
    match propKeyE (jget data "field") with
    | .error e => .error e
    | .ok f =>
      if isAppendType (jget data "type") && truthyOpt (alget value f) then
        match jget data "value" with
        | none => .error "TypeError: Object.keys of undefined"
        | some .null => .error "TypeError: Object.keys of null"
        | some pv =>
          match appendKeys (optSpreadProps (alget value f)) (spreadProps pv) with
          | .error e => .error e
          | .ok d => .ok (alset value f (.obj d))
      else
        .ok (alset value f (.obj (spreadMerge (optSpreadProps (alget value f)) (optSpreadProps (jget data "value")))))

/-- Skip JSON whitespace. -/
def skipWs : List Char → List Char
  | c :: cs => if c = ' ' || c = '\t' || c = '\n' || c = '\r' then skipWs cs else c :: cs
  | [] => []

/-- Read a maximal run of decimal digits: value, digit count, remainder. -/
def parseDigitsAux : List Char → Nat → Nat → Nat × Nat × List Char
  | c :: cs, acc, cnt =>
    if c.isDigit then parseDigitsAux cs (acc * 10 + (c.toNat - 48)) (cnt + 1)
    else (acc, cnt, c :: cs)
  | [], acc, cnt => (acc, cnt, [])

/-- Hexadecimal digit value, for string escapes. -/
def hexVal (c : Char) : Option Nat :=
  if c.isDigit then some (c.toNat - 48)
  else if 'a' ≤ c && c ≤ 'f' then some (c.toNat - 87)
  else if 'A' ≤ c && c ≤ 'F' then some (c.toNat - 55)
  else none

/-- Single-character JSON string escapes. -/
def escChar (c : Char) : Option Char :=
  if c = '"' then some '"'
  else if c = '\\' then some '\\'
  else if c = '/' then some '/'
  else if c = 'b' then some (Char.ofNat 8)
  else if c = 'f' then some (Char.ofNat 12)
  else if c = 'n' then some '\n'
  else if c = 'r' then some '\r'
  else if c = 't' then some '\t'
  else none

/-- Parse the body of a JSON string (the opening quote already consumed),
accumulating characters in reverse. -/
def parseStringAux : List Char → List Char → Except String (String × List Char)
  | [], _ => .error "unterminated string"
  | c :: cs, acc =>
    if c = '"' then .ok (String.mk acc.reverse, cs)
    else if c = '\\' then
      match cs with
      | [] => .error "unterminated escape"
      | e :: cs2 =>
        if e = 'u' then
          match cs2 with
          | a :: b :: c3 :: d :: cs3 =>
            match hexVal a, hexVal b, hexVal c3, hexVal d with
            | some ha, some hb, some hc, some hd =>
              parseStringAux cs3 (Char.ofNat (((ha * 16 + hb) * 16 + hc) * 16 + hd) :: acc)
            | _, _, _, _ => .error "bad unicode escape"
          | _ => .error "bad unicode escape"
        else
          match escChar e with
          | some ch => parseStringAux cs2 (ch :: acc)
          | none => .error "bad escape"
    else parseStringAux cs (c :: acc)

/-- Parse a JSON number into an exact rational (sign, integer part,
fraction, exponent). Leading-zero forms that `JSON.parse` would reject are
accepted; no claim depends on that corner. -/
def parseNumber (cs : List Char) : Except String (JVal × List Char) :=
  let signed := match cs with
    | '-' :: t => (true, t)
    | _ => (false, cs)
  let ipart := parseDigitsAux signed.2 0 0
  if ipart.2.1 = 0 then .error "invalid number"
  else
    let fracStep : Except String ((Nat × Nat) × List Char) := match ipart.2.2 with
      | '.' :: t =>
        let f := parseDigitsAux t 0 0
        if f.2.1 = 0 then .error "invalid number" else .ok ((f.1, f.2.1), f.2.2)
      | _ => .ok ((0, 0), ipart.2.2)
    match fracStep with
    | .error e => .error e
    | .ok ((fv, fc), cs2) =>
      let expStep : Except String ((Bool × Nat) × List Char) := match cs2 with
        | 'e' :: t | 'E' :: t =>
          let signedE := match t with
            | '+' :: t2 => (false, t2)
            | '-' :: t2 => (true, t2)
            | _ => (false, t)
          let ev := parseDigitsAux signedE.2 0 0
          if ev.2.1 = 0 then .error "invalid number" else .ok ((signedE.1, ev.1), ev.2.2)
        | _ => .ok ((false, 0), cs2)
      match expStep with
      | .error e => .error e
      | .ok ((eneg, ev), cs3) =>
        let base : Rat := (ipart.1 : Rat) + (fv : Rat) / ((10 : Rat) ^ fc)
        let scaled : Rat := if eneg then base / ((10 : Rat) ^ ev) else base * ((10 : Rat) ^ ev)
        .ok (.num (if signed.1 then -scaled else scaled), cs3)

mutual

/-- Recursive-descent JSON value parser (fuel-based). -/
def parseVal : Nat → List Char → Except String (JVal × List Char)
  | 0, _ => .error "out of fuel"
  | Nat.succ fuel, cs =>
    match skipWs cs with
    | [] => .error "unexpected end of input"
    | c :: rest =>
      if c = '{' then parseObjFields fuel rest []
      else if c = '[' then parseArrElems fuel rest []
      else if c = '"' then
        match parseStringAux rest [] with
        | .ok p => .ok (.str p.1, p.2)
        | .error e => .error e
      else if c = 'n' then
        match rest with
        | 'u' :: 'l' :: 'l' :: r => .ok (.null, r)
        | _ => .error "invalid literal"
      else if c = 't' then
        match rest with
        | 'r' :: 'u' :: 'e' :: r => .ok (.bool true, r)
        | _ => .error "invalid literal"
      else if c = 'f' then
        match rest with
        | 'a' :: 'l' :: 's' :: 'e' :: r => .ok (.bool false, r)
        | _ => .error "invalid literal"
      else if c = '-' || c.isDigit then parseNumber (c :: rest)
      else .error "unexpected character"

/-- Array elements after the opening bracket. -/
def parseArrElems : Nat → List Char → List JVal → Except String (JVal × List Char)
  | 0, _, _ => .error "out of fuel"
  | Nat.succ fuel, cs, acc =>
    match skipWs cs with
    | ']' :: r => if acc.isEmpty then .ok (.arr [], r) else .error "expected value"
    | rest =>
      match parseVal fuel rest with
      | .error e => .error e
      | .ok (v, r1) =>
        match skipWs r1 with
        | ',' :: r2 => parseArrElems fuel r2 (acc ++ [v])
        | ']' :: r2 => .ok (.arr (acc ++ [v]), r2)
        | _ => .error "expected comma or bracket"

/-- Object members after the opening brace; duplicate keys collapse with
the last value winning in the first position, as in `JSON.parse`. -/
def parseObjFields : Nat → List Char → List (String × JVal) → Except String (JVal × List Char)
  | 0, _, _ => .error "out of fuel"
  | Nat.succ fuel, cs, acc =>
    match skipWs cs with
    | '}' :: r => if acc.isEmpty then .ok (.obj [], r) else .error "expected key"
    | '"' :: r =>
      match parseStringAux r [] with
      | .error e => .error e
      | .ok (k, r1) =>
        match skipWs r1 with
        | ':' :: r2 =>
          match parseVal fuel r2 with
          | .error e => .error e
          | .ok (v, r3) =>
            match skipWs r3 with
            | ',' :: r4 => parseObjFields fuel r4 (alset acc k v)
            | '}' :: r4 => .ok (.obj (alset acc k v), r4)
            | _ => .error "expected comma or brace"
        | _ => .error "expected colon"
    | _ => .error "expected key"

end

/-- Model of `JSON.parse` on a text frame: one JSON value surrounded only
by whitespace, otherwise an error (the thrown `SyntaxError`). -/
def jsonParse (s : String) : Except String JVal :=
  match parseVal (2 * s.length + 2) s.toList with
  | .ok (v, rest) => if (skipWs rest).isEmpty then .ok v else .error "trailing characters"
  | .error e => .error e

/-- The claim-relevant part of the `sharedData` React state (App.tsx lines
85-89): the field store `value` and the store status. -/
structure SharedData where
  value : List (String × JVal)
  status : String

/-- One `onmessage` event against the `sharedData` state (App.tsx
`handleMessage`, lines 123-181). A `JSON.parse` failure is caught and only
sets `status := "error"`; on success the updater runs (an exception inside
the updater, modelled as `Except.error`, would escape `handleMessage`'s
try/catch because React runs the updater later). The deferred quiescence
reset to `"idle"` and the `wsState` summary history are not claim-relevant
here and are not modelled. -/
def handleMessageShared (sd : SharedData) (raw : String) : Except String SharedData :=
  match jsonParse raw with
  | .error _ => .ok ⟨sd.value, "error"⟩
  | .ok data =>
    match applySharedUpdate sd.value data with
    | .error e => .error e
    | .ok v => .ok ⟨v, "updating"⟩

/-- A sequence of frames processed in arrival order. -/
def handleMessages : SharedData → List String → Except String SharedData
  | sd, [] => .ok sd
  | sd, r :: rs =>
    match handleMessageShared sd r with
    | .error e => .error e
    | .ok sd2 => handleMessages sd2 rs

/-- JS `array.slice(-n)`: the last `n` elements (all of them if fewer). -/
def takeLast (n : Nat) (l : List String) : List String := l.drop (l.length - n)

/-- The message-history effect of `handleMessage` in
`src/components/WebSocketClient.tsx` (lines 20-30): a decodable frame
records its re-serialization (the serializer `JSON.stringify` is abstracted
as an argument), an undecodable frame records the raw text; either way the
history is bounded to the most recent 20 entries. -/
def wscMessageHistoryStep (stringify : JVal → String) (hist : List String) (raw : String) : List String :=
  match jsonParse raw with
  | .ok d => takeLast 19 hist ++ [stringify d]
  | .error _ => takeLast 19 hist ++ [raw]

/-- First frame of the replace scenario (age, value the string 21). -/
def ageMsg1 : String := "\x7b\"type\":\"replace\",\"field\":\"age\",\"value\":\"21\",\"timestamp\":1000\x7d"

/-- Second frame of the replace scenario (age, value the string 22). -/
def ageMsg2 : String := "\x7b\"type\":\"replace\",\"field\":\"age\",\"value\":\"22\",\"timestamp\":1001\x7d"

/-- First frame of the append scenario (res, max gets 1 and 2). -/
def resMsg1 : String := "\x7b\"type\":\"append\",\"field\":\"res\",\"value\":\x7b\"max\":[1,2]\x7d,\"timestamp\":1000\x7d"

/-- Second frame of the append scenario (res, max gets 3). -/
def resMsg2 : String := "\x7b\"type\":\"append\",\"field\":\"res\",\"value\":\x7b\"max\":[3]\x7d,\"timestamp\":1001\x7d"

/-- The existing array an append concatenates onto: an existing array
entry, with falsy or absent entries counting as the empty array. -/
def currentArr : Option JVal → List JVal
  | some (.arr old) => old
  | _ => []

/-- An existing entry on which the append branch does not throw: absent,
falsy, or an array. -/
def appendOk : Option JVal → Bool
  | some (.arr _) => true
  | some w => !truthy w
  | none => true

theorem alget_alset_self {α : Type} (l : List (String × α)) (k : String) (v : α) :
    alget (alset l k v) k = some v := by
  induction l with
  | nil => simp [alset, alget]
  | cons hd t ih =>
    obtain ⟨k2, v2⟩ := hd
    by_cases hk : k2 = k
    · simp [alset, hk, alget]
    · simp [alset, hk, alget, ih]

theorem alget_alset_ne {α : Type} (l : List (String × α)) (k q : String) (v : α)
    (h : q ≠ k) : alget (alset l k v) q = alget l q := by
  induction l with
  | nil => simp [alset, alget, Ne.symm h]
  | cons hd t ih =>
    obtain ⟨k2, v2⟩ := hd
    by_cases hk : k2 = k
    · subst hk
      simp [alset, alget, Ne.symm h]
    · simp [alset, hk, alget, ih]

theorem appendKeys_notmem (pv : List (String × JVal)) :
    ∀ (updated res : List (String × JVal)) (q : String),
    q ∉ pv.map Prod.fst → appendKeys updated pv = .ok res →
    alget res q = alget updated q := by
  induction pv with
  | nil =>
    intro updated res q _ h
    simp only [appendKeys, Except.ok.injEq] at h
    rw [h]
  | cons hd rest ih =>
    intro updated res q hq h
    obtain ⟨k, v⟩ := hd
    have hqk : q ≠ k := fun e => hq (by simp [e])
    have hqrest : q ∉ rest.map Prod.fst := fun e => hq (by simp [e])
    cases v with
    | arr xs =>
      simp only [appendKeys] at h
      split at h
      · rw [ih _ _ _ hqrest h, alget_alset_ne _ _ _ _ hqk]
      · exact absurd h (by simp)
    | null => exact ih _ _ _ hqrest (by simpa only [appendKeys] using h)
    | bool b => exact ih _ _ _ hqrest (by simpa only [appendKeys] using h)
    | num n => exact ih _ _ _ hqrest (by simpa only [appendKeys] using h)
    | str s => exact ih _ _ _ hqrest (by simpa only [appendKeys] using h)
    | obj fs => exact ih _ _ _ hqrest (by simpa only [appendKeys] using h)

theorem concatStep_eq (cur : Option JVal) (xs ys : List JVal)
    (h : concatStep cur xs = .ok ys) : ys = currentArr cur ++ xs := by
  cases cur with
  | none =>
    simp only [concatStep, Except.ok.injEq] at h
    simp [currentArr, h]
  | some w =>
    cases w with
    | arr old =>
      simp only [concatStep, Except.ok.injEq] at h
      simp [currentArr, h]
    | null =>
      simp only [concatStep, truthy, Except.ok.injEq] at h
      simp only [Bool.false_eq_true, if_false, Except.ok.injEq] at h
      simp [currentArr, h]
    | bool b =>
      simp only [concatStep, truthy] at h
      split at h
      · exact absurd h (by simp)
      · simp only [Except.ok.injEq] at h
        simp [currentArr, h]
    | num n =>
      simp only [concatStep, truthy] at h
      split at h
      · exact absurd h (by simp)
      · simp only [Except.ok.injEq] at h
        simp [currentArr, h]
    | str s =>
      simp only [concatStep, truthy] at h
      split at h
      · exact absurd h (by simp)
      · simp only [Except.ok.injEq] at h
        simp [currentArr, h]
    | obj fs =>
      simp only [concatStep, truthy] at h
      split at h
      · exact absurd h (by simp)
      · simp only [Except.ok.injEq] at h
        simp [currentArr, h]

theorem concatStep_isOk (cur : Option JVal) (xs : List JVal) (h : appendOk cur = true) :
    concatStep cur xs = .ok (currentArr cur ++ xs) := by
  cases cur with
  | none => simp [concatStep, currentArr]
  | some w =>
    cases w with
    | arr old => simp [concatStep, currentArr]
    | null => simp [concatStep, truthy, currentArr]
    | bool b =>
      simp only [appendOk, truthy, Bool.not_eq_eq_eq_not, Bool.not_true] at h
      simp [concatStep, truthy, h, currentArr]
    | num n =>
      simp only [appendOk, truthy] at h
      simp only [Bool.not_eq_eq_eq_not, Bool.not_true, decide_eq_false_iff_not, not_not] at h
      simp [concatStep, truthy, h, currentArr]
    | str s =>
      simp only [appendOk, truthy] at h
      simp only [Bool.not_eq_eq_eq_not, Bool.not_true, decide_eq_false_iff_not, not_not] at h
      simp [concatStep, truthy, h, currentArr]
    | obj fs =>
      simp only [appendOk, truthy] at h
      simp at h

theorem appendKeys_mem (pv : List (String × JVal)) :
    ∀ (updated res : List (String × JVal)) (q : String) (xs : List JVal),
    (pv.map Prod.fst).Nodup → (q, JVal.arr xs) ∈ pv → appendKeys updated pv = .ok res →
    alget res q = some (.arr (currentArr (alget updated q) ++ xs)) := by
  induction pv with
  | nil =>
    intro _ _ _ _ _ hmem _
    simp at hmem
  | cons hd rest ih =>
    intro updated res q xs hnd hmem h
    obtain ⟨k, v⟩ := hd
    have hnd2 : (k :: rest.map Prod.fst).Nodup := by simpa using hnd
    have hk : k ∉ rest.map Prod.fst := (List.nodup_cons.mp hnd2).1
    have hndrest : (rest.map Prod.fst).Nodup := (List.nodup_cons.mp hnd2).2
    rcases List.mem_cons.mp hmem with heq | hmemrest
    · have hqk : q = k := congrArg Prod.fst heq
      have hv : JVal.arr xs = v := congrArg Prod.snd heq
      subst hqk
      subst hv
      simp only [appendKeys] at h
      cases hcs : concatStep (alget updated q) xs with
      | error e =>
        rw [hcs] at h
        exact absurd h (by simp)
      | ok newArr =>
        rw [hcs] at h
        rw [appendKeys_notmem rest _ _ _ hk h, alget_alset_self, ← concatStep_eq _ _ _ hcs]
    · have hqrest : q ∈ rest.map Prod.fst :=
        List.mem_map.mpr ⟨(q, JVal.arr xs), hmemrest, rfl⟩
      have hqk : q ≠ k := fun e => hk (e ▸ hqrest)
      cases v with
      | arr vxs =>
        simp only [appendKeys] at h
        cases hcs : concatStep (alget updated k) vxs with
        | error e =>
          rw [hcs] at h
          exact absurd h (by simp)
        | ok newArr =>
          rw [hcs] at h
          rw [ih _ _ _ _ hndrest hmemrest h, alget_alset_ne _ _ _ _ hqk]
      | null => exact ih _ _ _ _ hndrest hmemrest (by simpa only [appendKeys] using h)
      | bool b => exact ih _ _ _ _ hndrest hmemrest (by simpa only [appendKeys] using h)
      | num n => exact ih _ _ _ _ hndrest hmemrest (by simpa only [appendKeys] using h)
      | str s => exact ih _ _ _ _ hndrest hmemrest (by simpa only [appendKeys] using h)
      | obj fs => exact ih _ _ _ _ hndrest hmemrest (by simpa only [appendKeys] using h)

theorem appendKeys_isOk (pv : List (String × JVal)) :
    ∀ (updated : List (String × JVal)),
    (∀ q xs, (q, JVal.arr xs) ∈ pv → appendOk (alget updated q) = true) →
    ∃ res, appendKeys updated pv = .ok res := by
  induction pv with
  | nil => intro updated _; exact ⟨updated, rfl⟩
  | cons hd rest ih =>
    intro updated hsafe
    obtain ⟨k, v⟩ := hd
    cases v with
    | arr xs =>
      have hok : appendOk (alget updated k) = true := hsafe k xs (by simp)
      have hsafe2 : ∀ q ys, (q, JVal.arr ys) ∈ rest →
          appendOk (alget (alset updated k (.arr (currentArr (alget updated k) ++ xs))) q) = true := by
        intro q ys hmem
        by_cases hq : q = k
        · subst hq
          rw [alget_alset_self]
          simp [appendOk]
        · rw [alget_alset_ne _ _ _ _ hq]
          exact hsafe q ys (List.mem_cons_of_mem _ hmem)
      obtain ⟨res, hres⟩ := ih _ hsafe2
      refine ⟨res, ?_⟩
      simp only [appendKeys]
      rw [concatStep_isOk _ _ hok]
      exact hres
    | null =>
      obtain ⟨res, hres⟩ := ih updated (fun q ys hmem => hsafe q ys (List.mem_cons_of_mem _ hmem))
      exact ⟨res, by simp only [appendKeys]; exact hres⟩
    | bool b =>
      obtain ⟨res, hres⟩ := ih updated (fun q ys hmem => hsafe q ys (List.mem_cons_of_mem _ hmem))
      exact ⟨res, by simp only [appendKeys]; exact hres⟩
    | num n =>
      obtain ⟨res, hres⟩ := ih updated (fun q ys hmem => hsafe q ys (List.mem_cons_of_mem _ hmem))
      exact ⟨res, by simp only [appendKeys]; exact hres⟩
    | str s =>
      obtain ⟨res, hres⟩ := ih updated (fun q ys hmem => hsafe q ys (List.mem_cons_of_mem _ hmem))
      exact ⟨res, by simp only [appendKeys]; exact hres⟩
    | obj fs =>
      obtain ⟨res, hres⟩ := ih updated (fun q ys hmem => hsafe q ys (List.mem_cons_of_mem _ hmem))
      exact ⟨res, by simp only [appendKeys]; exact hres⟩

theorem applyAppend_eq (value : List (String × JVal)) (data : JVal) (f : String)
    (cur pv : List (String × JVal))
    (ht : jget data "type" = some (.str "append"))
    (hf : jget data "field" = some (.str f))
    (hv : jget data "value" = some (.obj pv))
    (hcur : alget value f = some (.obj cur)) :
    applySharedUpdate value data =
      Except.map (fun d => alset value f (JVal.obj d)) (appendKeys cur pv) := by
  cases data with
  | null => simp [jget] at hf
  | bool b => simp [jget] at hf
  | num n => simp [jget] at hf
  | str s => simp [jget] at hf
  | arr a => simp [jget] at hf
  | obj ds =>
    simp only [applySharedUpdate, hf, propKeyE, ht, hcur, isAppendType, truthyOpt, truthy,
      hv, optSpreadProps, spreadProps]
    cases hres : appendKeys cur pv with
    | error e => simp [hres, Except.map]
    | ok d => simp [hres, Except.map]

/-- C10: a decoded update naming field `f` changes at most the Field Store
entry for `f`: every other field's stored value is unchanged, in the
append branch as well as in the spread-merge replace branch. -/
theorem update_affects_only_named_field (value : List (String × JVal)) (data : JVal)
    (v2 : List (String × JVal)) (f g : String)
    (hf : jget data "field" = some (.str f))
    (happ : applySharedUpdate value data = .ok v2)
    (hg : g ≠ f) :
    alget v2 g = alget value g := by
  cases data with
  | null => simp [jget] at hf
  | bool b => simp [jget] at hf
  | num n => simp [jget] at hf
  | str s => simp [jget] at hf
  | arr a => simp [jget] at hf
  | obj ds =>
    simp only [applySharedUpdate, hf, propKeyE] at happ
    split at happ
    · split at happ
      · exact absurd happ (by simp)
      · exact absurd happ (by simp)
      · split at happ
        · exact absurd happ (by simp)
        · simp only [Except.ok.injEq] at happ
          rw [← happ]
          exact alget_alset_ne _ _ _ _ hg
    · simp only [Except.ok.injEq] at happ
      rw [← happ]
      exact alget_alset_ne _ _ _ _ hg

/-- Witness for C10 at a concrete store and message replacing field a. -/
theorem update_affects_only_named_field_witness :
    alget [("a", JVal.obj [("z", JVal.num 1)]), ("b", JVal.str "x")] "b" =
      alget [("a", JVal.obj []), ("b", JVal.str "x")] "b" :=
  update_affects_only_named_field [("a", JVal.obj []), ("b", JVal.str "x")]
    (JVal.obj [("type", JVal.str "replace"), ("field", JVal.str "a"),
      ("value", JVal.obj [("z", JVal.num 1)])])
    [("a", JVal.obj [("z", JVal.num 1)]), ("b", JVal.str "x")] "a" "b" rfl rfl (by simp)

/-- C1 (scenario evaluation): replacing field age with the string 21 and
then the string 22, starting from an empty store, leaves age bound to the
character-indexed object produced by spreading the string 22 — not to the
string 22 itself. -/
theorem replace_string_scenario_eval :
    handleMessages ⟨[], "idle"⟩ [ageMsg1, ageMsg2] =
      .ok ⟨[("age", JVal.obj [("0", JVal.str "2"), ("1", JVal.str "2")])], "updating"⟩ ∧
    (JVal.obj [("0", JVal.str "2"), ("1", JVal.str "2")] = JVal.str "22" → False) :=
  ⟨by with_unfolding_all rfl, fun h => JVal.noConfusion h⟩

/-- C4: append semantics. General part: on an append update whose payload
keys are distinct, every array payload key is concatenated onto the
existing entry in arrival order (absent keys start from the empty array)
and payload keys not present leave entries unchanged. Scenario part: the
res scenario (append max [1,2] to an absent field, then append max [3])
ends with res.max = [1,2,3]. -/
theorem append_concat_semantics :
    (∀ (value : List (String × JVal)) (data : JVal) (f : String)
       (cur pv v2 : List (String × JVal)),
      jget data "type" = some (.str "append") →
      jget data "field" = some (.str f) →
      jget data "value" = some (.obj pv) →
      alget value f = some (.obj cur) →
      (pv.map Prod.fst).Nodup →
      applySharedUpdate value data = .ok v2 →
      ∃ d, alget v2 f = some (.obj d) ∧
        (∀ q xs, (q, JVal.arr xs) ∈ pv →
          alget d q = some (.arr (currentArr (alget cur q) ++ xs))) ∧
        (∀ q, q ∉ pv.map Prod.fst → alget d q = alget cur q)) ∧
    handleMessages ⟨[], "idle"⟩ [resMsg1, resMsg2] =
      .ok ⟨[("res", JVal.obj [("max", JVal.arr [JVal.num 1, JVal.num 2, JVal.num 3])])], "updating"⟩ := by
  constructor
  · intro value data f cur pv v2 ht hf hv hcur hnd happ
    rw [applyAppend_eq value data f cur pv ht hf hv hcur] at happ
    cases hres : appendKeys cur pv with
    | error e =>
      rw [hres] at happ
      exact absurd happ (by simp [Except.map])
    | ok d =>
      rw [hres] at happ
      simp only [Except.map, Except.ok.injEq] at happ
      refine ⟨d, ?_, ?_, ?_⟩
      · rw [← happ]
        exact alget_alset_self _ _ _
      · intro q xs hmem
        exact appendKeys_mem pv cur d q xs hnd hmem hres
      · intro q hq
        exact appendKeys_notmem pv cur d q hq hres
  · with_unfolding_all rfl

/-- Witness for C4 at a concrete store and append message touching one
existing and one new key. -/
theorem append_concat_semantics_witness :
    ∃ d, alget [("res", JVal.obj [("max", JVal.arr [JVal.num 1, JVal.num 2]),
        ("rms", JVal.arr [JVal.num 5])])] "res" = some (JVal.obj d) ∧
      (∀ q xs, (q, JVal.arr xs) ∈
          [("max", JVal.arr [JVal.num 2]), ("rms", JVal.arr [JVal.num 5])] →
        alget d q = some (.arr (currentArr (alget [("max", JVal.arr [JVal.num 1])] q) ++ xs))) ∧
      (∀ q, q ∉ ([("max", JVal.arr [JVal.num 2]),
          ("rms", JVal.arr [JVal.num 5])].map Prod.fst) →
        alget d q = alget [("max", JVal.arr [JVal.num 1])] q) :=
  append_concat_semantics.1 [("res", JVal.obj [("max", JVal.arr [JVal.num 1])])]
    (JVal.obj [("type", JVal.str "append"), ("field", JVal.str "res"),
      ("value", JVal.obj [("max", JVal.arr [JVal.num 2]), ("rms", JVal.arr [JVal.num 5])])])
    "res" [("max", JVal.arr [JVal.num 1])]
    [("max", JVal.arr [JVal.num 2]), ("rms", JVal.arr [JVal.num 5])]
    [("res", JVal.obj [("max", JVal.arr [JVal.num 1, JVal.num 2]), ("rms", JVal.arr [JVal.num 5])])]
    rfl rfl rfl rfl (by simp) rfl

/-- C5: an undecodable frame is caught by the try/catch: the store's field
values are unchanged (only the status flag flips to error), the
plain-message history of the WebSocketClient component gains exactly one
entry holding the raw text, and handling is total, so later frames are
still processed. -/
theorem malformed_frame_harmless (sd : SharedData) (raw : String) (e : String)
    (stringify : JVal → String) (hist : List String)
    (hp : jsonParse raw = .error e) :
    handleMessageShared sd raw = .ok ⟨sd.value, "error"⟩ ∧
    wscMessageHistoryStep stringify hist raw = takeLast 19 hist ++ [raw] := by
  constructor
  · simp [handleMessageShared, hp]
  · simp [wscMessageHistoryStep, hp]

/-- Witness for C5 at the frame not json. -/
theorem malformed_frame_harmless_witness :
    handleMessageShared ⟨[("age", JVal.str "x")], "idle"⟩ "not json" =
      .ok ⟨[("age", JVal.str "x")], "error"⟩ ∧
    wscMessageHistoryStep (fun _ => "") ["m1"] "not json" = ["m1", "not json"] := by
  have h := malformed_frame_harmless ⟨[("age", JVal.str "x")], "idle"⟩ "not json"
    "invalid literal" (fun _ => "") ["m1"] rfl
  exact ⟨h.1, h.2.trans rfl⟩

/-- A canonical append message for field `f` with payload `pv`. -/
def appendMsg (f : String) (pv : List (String × JVal)) : JVal :=
  .obj [("type", .str "append"), ("field", .str f), ("value", .obj pv)]

/-- C8 counterexample: two same-key appends with different segments ([1]
versus [1,1]) produce identical stores in either order, so swapping the
order does not change the result whenever the appended segments differ. -/
theorem append_swap_counterexample :
    Except.bind (applySharedUpdate [("res", JVal.obj [("max", JVal.arr [])])]
        (appendMsg "res" [("max", JVal.arr [JVal.num 1])]))
      (fun s => applySharedUpdate s (appendMsg "res" [("max", JVal.arr [JVal.num 1, JVal.num 1])])) =
    Except.bind (applySharedUpdate [("res", JVal.obj [("max", JVal.arr [])])]
        (appendMsg "res" [("max", JVal.arr [JVal.num 1, JVal.num 1])]))
      (fun s => applySharedUpdate s (appendMsg "res" [("max", JVal.arr [JVal.num 1])])) ∧
    ([JVal.num 1] = [JVal.num 1, JVal.num 1] → False) :=
  ⟨rfl, fun h => by simpa using congrArg List.length h⟩

/-- C8 (amended): appends to the same field commute, as a key-to-array
mapping, when their payloads touch disjoint keys; for the same key the
result is concatenation in arrival order, so swapping the order changes
the result exactly when the two segments do not commute under
concatenation (differing segments alone are not sufficient). -/
theorem append_order_semantics :
    (∀ (value : List (String × JVal)) (dA dB : JVal) (f : String)
       (cur pa pb : List (String × JVal)),
      jget dA "type" = some (.str "append") →
      jget dA "field" = some (.str f) →
      jget dA "value" = some (.obj pa) →
      jget dB "type" = some (.str "append") →
      jget dB "field" = some (.str f) →
      jget dB "value" = some (.obj pb) →
      alget value f = some (.obj cur) →
      (pa.map Prod.fst).Nodup →
      (pb.map Prod.fst).Nodup →
      (∀ q, q ∈ pa.map Prod.fst → q ∉ pb.map Prod.fst) →
      (∀ q v, (q, v) ∈ pa → ∃ xs, v = JVal.arr xs) →
      (∀ q v, (q, v) ∈ pb → ∃ xs, v = JVal.arr xs) →
      (∀ q xs, (q, JVal.arr xs) ∈ pa → appendOk (alget cur q) = true) →
      (∀ q xs, (q, JVal.arr xs) ∈ pb → appendOk (alget cur q) = true) →
      ∃ sAB sBA dab dba,
        Except.bind (applySharedUpdate value dA) (fun s => applySharedUpdate s dB) = .ok sAB ∧
        Except.bind (applySharedUpdate value dB) (fun s => applySharedUpdate s dA) = .ok sBA ∧
        alget sAB f = some (.obj dab) ∧ alget sBA f = some (.obj dba) ∧
        (∀ k, alget dab k = alget dba k) ∧
        (∀ g, g ≠ f → alget sAB g = alget value g ∧ alget sBA g = alget value g)) ∧
    (∀ (value : List (String × JVal)) (f k : String) (cur : List (String × JVal))
       (xs ys : List JVal),
      alget value f = some (.obj cur) →
      appendOk (alget cur k) = true →
      ∃ sAB sBA dab dba,
        Except.bind (applySharedUpdate value (appendMsg f [(k, JVal.arr xs)]))
          (fun s => applySharedUpdate s (appendMsg f [(k, JVal.arr ys)])) = .ok sAB ∧
        Except.bind (applySharedUpdate value (appendMsg f [(k, JVal.arr ys)]))
          (fun s => applySharedUpdate s (appendMsg f [(k, JVal.arr xs)])) = .ok sBA ∧
        alget sAB f = some (.obj dab) ∧ alget sBA f = some (.obj dba) ∧
        alget dab k = some (.arr (currentArr (alget cur k) ++ (xs ++ ys))) ∧
        alget dba k = some (.arr (currentArr (alget cur k) ++ (ys ++ xs))) ∧
        (alget dab k = alget dba k ↔ xs ++ ys = ys ++ xs)) := by
  constructor
  · intro value dA dB f cur pa pb htA hfA hvA htB hfB hvB hcur hnda hndb hdisj halla hallb hsa hsb
    obtain ⟨da, hda⟩ := appendKeys_isOk pa cur hsa
    obtain ⟨db, hdb⟩ := appendKeys_isOk pb cur hsb
    have hA : applySharedUpdate value dA = .ok (alset value f (.obj da)) := by
      rw [applyAppend_eq value dA f cur pa htA hfA hvA hcur, hda]
      rfl
    have hB : applySharedUpdate value dB = .ok (alset value f (.obj db)) := by
      rw [applyAppend_eq value dB f cur pb htB hfB hvB hcur, hdb]
      rfl
    have hcurA : alget (alset value f (JVal.obj da)) f = some (.obj da) := alget_alset_self _ _ _
    have hcurB : alget (alset value f (JVal.obj db)) f = some (.obj db) := alget_alset_self _ _ _
    have hsb2 : ∀ q xs, (q, JVal.arr xs) ∈ pb → appendOk (alget da q) = true := by
      intro q xs hm
      have hq : q ∉ pa.map Prod.fst :=
        fun hin => hdisj q hin (List.mem_map.mpr ⟨(q, JVal.arr xs), hm, rfl⟩)
      rw [appendKeys_notmem pa cur da q hq hda]
      exact hsb q xs hm
    have hsa2 : ∀ q xs, (q, JVal.arr xs) ∈ pa → appendOk (alget db q) = true := by
      intro q xs hm
      have hq : q ∉ pb.map Prod.fst :=
        hdisj q (List.mem_map.mpr ⟨(q, JVal.arr xs), hm, rfl⟩)
      rw [appendKeys_notmem pb cur db q hq hdb]
      exact hsa q xs hm
    obtain ⟨dab, hdab⟩ := appendKeys_isOk pb da hsb2
    obtain ⟨dba, hdba⟩ := appendKeys_isOk pa db hsa2
    have hAB : applySharedUpdate (alset value f (JVal.obj da)) dB =
        .ok (alset (alset value f (JVal.obj da)) f (.obj dab)) := by
      rw [applyAppend_eq _ dB f da pb htB hfB hvB hcurA, hdab]
      rfl
    have hBA : applySharedUpdate (alset value f (JVal.obj db)) dA =
        .ok (alset (alset value f (JVal.obj db)) f (.obj dba)) := by
      rw [applyAppend_eq _ dA f db pa htA hfA hvA hcurB, hdba]
      rfl
    refine ⟨alset (alset value f (JVal.obj da)) f (JVal.obj dab),
      alset (alset value f (JVal.obj db)) f (JVal.obj dba), dab, dba,
      ?_, ?_, alget_alset_self _ _ _, alget_alset_self _ _ _, ?_, ?_⟩
    · rw [hA]
      exact hAB
    · rw [hB]
      exact hBA
    · intro k
      by_cases hka : k ∈ pa.map Prod.fst
      · obtain ⟨p, hpmem, hpk⟩ := List.mem_map.mp hka
        obtain ⟨xs, hxs⟩ := halla p.1 p.2 hpmem
        have hmem : (k, JVal.arr xs) ∈ pa := by
          have : p = (k, JVal.arr xs) := by
            rw [Prod.ext_iff]
            exact ⟨hpk, hxs⟩
          rw [← this]
          exact hpmem
        have hkb : k ∉ pb.map Prod.fst := hdisj k hka
        rw [appendKeys_notmem pb da dab k hkb hdab,
          appendKeys_mem pa cur da k xs hnda hmem hda,
          appendKeys_mem pa db dba k xs hnda hmem hdba,
          appendKeys_notmem pb cur db k hkb hdb]
      · by_cases hkb : k ∈ pb.map Prod.fst
        · obtain ⟨p, hpmem, hpk⟩ := List.mem_map.mp hkb
          obtain ⟨xs, hxs⟩ := hallb p.1 p.2 hpmem
          have hmem : (k, JVal.arr xs) ∈ pb := by
            have : p = (k, JVal.arr xs) := by
              rw [Prod.ext_iff]
              exact ⟨hpk, hxs⟩
            rw [← this]
            exact hpmem
          rw [appendKeys_mem pb da dab k xs hndb hmem hdab,
            appendKeys_notmem pa cur da k hka hda,
            appendKeys_notmem pa db dba k hka hdba,
            appendKeys_mem pb cur db k xs hndb hmem hdb]
        · rw [appendKeys_notmem pb da dab k hkb hdab,
            appendKeys_notmem pa cur da k hka hda,
            appendKeys_notmem pa db dba k hka hdba,
            appendKeys_notmem pb cur db k hkb hdb]
    · intro g hg
      constructor
      · rw [alget_alset_ne _ _ _ _ hg, alget_alset_ne _ _ _ _ hg]
      · rw [alget_alset_ne _ _ _ _ hg, alget_alset_ne _ _ _ _ hg]
  · intro value f k cur xs ys hcur hok
    have hsx : ∀ q zs, (q, JVal.arr zs) ∈ [(k, JVal.arr xs)] → appendOk (alget cur q) = true := by
      intro q zs hm
      simp only [List.mem_singleton, Prod.mk.injEq] at hm
      rw [hm.1]
      exact hok
    obtain ⟨da, hda⟩ := appendKeys_isOk [(k, JVal.arr xs)] cur hsx
    have hdak : alget da k = some (.arr (currentArr (alget cur k) ++ xs)) :=
      appendKeys_mem _ cur da k xs (by simp) (by simp) hda
    have hsy : ∀ q zs, (q, JVal.arr zs) ∈ [(k, JVal.arr ys)] → appendOk (alget cur q) = true := by
      intro q zs hm
      simp only [List.mem_singleton, Prod.mk.injEq] at hm
      rw [hm.1]
      exact hok
    obtain ⟨db, hdb⟩ := appendKeys_isOk [(k, JVal.arr ys)] cur hsy
    have hdbk : alget db k = some (.arr (currentArr (alget cur k) ++ ys)) :=
      appendKeys_mem _ cur db k ys (by simp) (by simp) hdb
    have hsy2 : ∀ q zs, (q, JVal.arr zs) ∈ [(k, JVal.arr ys)] → appendOk (alget da q) = true := by
      intro q zs hm
      simp only [List.mem_singleton, Prod.mk.injEq] at hm
      rw [hm.1, hdak]
      rfl
    obtain ⟨dab, hdab⟩ := appendKeys_isOk [(k, JVal.arr ys)] da hsy2
    have hdabk : alget dab k = some (.arr (currentArr (alget da k) ++ ys)) :=
      appendKeys_mem _ da dab k ys (by simp) (by simp) hdab
    have hsx2 : ∀ q zs, (q, JVal.arr zs) ∈ [(k, JVal.arr xs)] → appendOk (alget db q) = true := by
      intro q zs hm
      simp only [List.mem_singleton, Prod.mk.injEq] at hm
      rw [hm.1, hdbk]
      rfl
    obtain ⟨dba, hdba⟩ := appendKeys_isOk [(k, JVal.arr xs)] db hsx2
    have hdbak : alget dba k = some (.arr (currentArr (alget db k) ++ xs)) :=
      appendKeys_mem _ db dba k xs (by simp) (by simp) hdba
    have hA : applySharedUpdate value (appendMsg f [(k, JVal.arr xs)]) =
        .ok (alset value f (.obj da)) := by
      rw [applyAppend_eq value (appendMsg f [(k, JVal.arr xs)]) f cur [(k, JVal.arr xs)] rfl rfl rfl hcur, hda]
      rfl
    have hB : applySharedUpdate value (appendMsg f [(k, JVal.arr ys)]) =
        .ok (alset value f (.obj db)) := by
      rw [applyAppend_eq value (appendMsg f [(k, JVal.arr ys)]) f cur [(k, JVal.arr ys)] rfl rfl rfl hcur, hdb]
      rfl
    have hAB : applySharedUpdate (alset value f (JVal.obj da)) (appendMsg f [(k, JVal.arr ys)]) =
        .ok (alset (alset value f (JVal.obj da)) f (.obj dab)) := by
      rw [applyAppend_eq (alset value f (JVal.obj da)) (appendMsg f [(k, JVal.arr ys)]) f da [(k, JVal.arr ys)] rfl rfl rfl (alget_alset_self _ _ _), hdab]
      rfl
    have hBA : applySharedUpdate (alset value f (JVal.obj db)) (appendMsg f [(k, JVal.arr xs)]) =
        .ok (alset (alset value f (JVal.obj db)) f (.obj dba)) := by
      rw [applyAppend_eq (alset value f (JVal.obj db)) (appendMsg f [(k, JVal.arr xs)]) f db [(k, JVal.arr xs)] rfl rfl rfl (alget_alset_self _ _ _), hdba]
      rfl
    have habk : alget dab k = some (.arr (currentArr (alget cur k) ++ (xs ++ ys))) := by
      rw [hdabk, hdak]
      simp [currentArr, List.append_assoc]
    have hbak : alget dba k = some (.arr (currentArr (alget cur k) ++ (ys ++ xs))) := by
      rw [hdbak, hdbk]
      simp [currentArr, List.append_assoc]
    refine ⟨alset (alset value f (JVal.obj da)) f (JVal.obj dab),
      alset (alset value f (JVal.obj db)) f (JVal.obj dba), dab, dba,
      ?_, ?_, alget_alset_self _ _ _, alget_alset_self _ _ _,
      habk, hbak, ?_⟩
    · rw [hA]
      exact hAB
    · rw [hB]
      exact hBA
    · constructor
      · intro h
        rw [habk, hbak] at h
        simp only [Option.some.injEq, JVal.arr.injEq] at h
        exact List.append_cancel_left h
      · intro h
        rw [habk, hbak, h]

/-- Witness for C8 at two concrete disjoint-key appends on field res. -/
theorem append_order_semantics_witness :
    ∃ sAB sBA dab dba,
      Except.bind (applySharedUpdate [("res", JVal.obj [])]
          (appendMsg "res" [("max", JVal.arr [JVal.num 1])]))
        (fun s => applySharedUpdate s (appendMsg "res" [("rms", JVal.arr [JVal.num 2])])) = .ok sAB ∧
      Except.bind (applySharedUpdate [("res", JVal.obj [])]
          (appendMsg "res" [("rms", JVal.arr [JVal.num 2])]))
        (fun s => applySharedUpdate s (appendMsg "res" [("max", JVal.arr [JVal.num 1])])) = .ok sBA ∧
      alget sAB "res" = some (JVal.obj dab) ∧ alget sBA "res" = some (JVal.obj dba) ∧
      (∀ k, alget dab k = alget dba k) ∧
      (∀ g, g ≠ "res" →
        alget sAB g = alget [("res", JVal.obj [])] g ∧
        alget sBA g = alget [("res", JVal.obj [])] g) :=
  append_order_semantics.1 [("res", JVal.obj [])]
    (appendMsg "res" [("max", JVal.arr [JVal.num 1])])
    (appendMsg "res" [("rms", JVal.arr [JVal.num 2])])
    "res" [] [("max", JVal.arr [JVal.num 1])] [("rms", JVal.arr [JVal.num 2])]
    rfl rfl rfl rfl rfl rfl rfl (by simp) (by simp)
    (by intro q hq hq2; simp at hq hq2; rw [hq] at hq2; exact absurd hq2 (by decide))
    (by intro q v hm; simp at hm; exact ⟨[JVal.num 1], hm.2⟩)
    (by intro q v hm; simp at hm; exact ⟨[JVal.num 2], hm.2⟩)
    (fun q xs _ => rfl) (fun q xs _ => rfl)

/-- JavaScript numbers for the color pipeline: exact rationals extended
with NaN and the infinities (`Math.min()` of no arguments is Infinity,
0/0 is NaN). Double rounding is idealized away; the claims only involve
exact values. -/
inductive JNum where
  | nan : JNum
  | posInf : JNum
  | negInf : JNum
  | fin : Rat → JNum
deriving DecidableEq

/-- IEEE subtraction on `JNum`. -/
def jnSub : JNum → JNum → JNum
  | .nan, _ => .nan
  | _, .nan => .nan
  | .fin a, .fin b => .fin (a - b)
  | .posInf, .posInf => .nan
  | .posInf, _ => .posInf
  | .negInf, .negInf => .nan
  | .negInf, _ => .negInf
  | .fin _, .posInf => .negInf
  | .fin _, .negInf => .posInf

/-- IEEE multiplication on `JNum`. -/
def jnMul : JNum → JNum → JNum
  | .nan, _ => .nan
  | _, .nan => .nan
  | .fin a, .fin b => .fin (a * b)
  | .posInf, .posInf => .posInf
  | .posInf, .negInf => .negInf
  | .negInf, .posInf => .negInf
  | .negInf, .negInf => .posInf
  | .posInf, .fin b => if b = 0 then .nan else if 0 < b then .posInf else .negInf
  | .negInf, .fin b => if b = 0 then .nan else if 0 < b then .negInf else .posInf
  | .fin a, .posInf => if a = 0 then .nan else if 0 < a then .posInf else .negInf
  | .fin a, .negInf => if a = 0 then .nan else if 0 < a then .negInf else .posInf

/-- IEEE division on `JNum` (0/0 is NaN, x/0 is a signed infinity; signed
zero is not modelled). -/
def jnDiv : JNum → JNum → JNum
  | .nan, _ => .nan
  | _, .nan => .nan
  | .fin a, .fin b =>
    if b = 0 then (if a = 0 then .nan else if 0 < a then .posInf else .negInf)
    else .fin (a / b)
  | .posInf, .fin b => if 0 ≤ b then .posInf else .negInf
  | .negInf, .fin b => if 0 ≤ b then .negInf else .posInf
  | .fin _, .posInf => .fin 0
  | .fin _, .negInf => .fin 0
  | _, _ => .nan

/-- `Math.min` on two numbers (NaN propagates). -/
def jnMin : JNum → JNum → JNum
  | .nan, _ => .nan
  | _, .nan => .nan
  | .negInf, _ => .negInf
  | _, .negInf => .negInf
  | .posInf, b => b
  | a, .posInf => a
  | .fin a, .fin b => .fin (min a b)

/-- `Math.max` on two numbers (NaN propagates). -/
def jnMax : JNum → JNum → JNum
  | .nan, _ => .nan
  | _, .nan => .nan
  | .posInf, _ => .posInf
  | _, .posInf => .posInf
  | .negInf, b => b
  | a, .negInf => a
  | .fin a, .fin b => .fin (max a b)

/-- The strict comparison `a < b` (false whenever NaN is involved). -/
def jnLtB : JNum → JNum → Bool
  | .nan, _ => false
  | _, .nan => false
  | .fin a, .fin b => decide (a < b)
  | .negInf, .negInf => false
  | .negInf, _ => true
  | _, .negInf => false
  | .posInf, _ => false
  | .fin _, .posInf => true

/-- `Math.floor` (NaN and infinities pass through). -/
def jnFloor : JNum → JNum
  | .nan => .nan
  | .posInf => .posInf
  | .negInf => .negInf
  | .fin q => .fin ((⌊q⌋ : Int) : Rat)

/-- Rendering of a channel value into the rgb template string. Channels
are floors, hence integers (or NaN); the fractional branch is unreachable
in the emitted strings. -/
def jnumToStr : JNum → String
  | .nan => "NaN"
  | .posInf => "Infinity"
  | .negInf => "-Infinity"
  | .fin q => if q.den = 1 then toString q.num else toString q.num ++ "/" ++ toString q.den

/-- `Math.min(...xs)` over a spread list of finite numbers. -/
def jsMinSpread (xs : List Rat) : JNum :=
  xs.foldl (fun acc x => jnMin acc (.fin x)) .posInf

/-- `Math.max(...xs)` over a spread list of finite numbers. -/
def jsMaxSpread (xs : List Rat) : JNum :=
  xs.foldl (fun acc x => jnMax acc (.fin x)) .negInf

/-- The `colorValue` argument reaching `MeshCell` from `Scene`
(Scene.tsx line 157): `undefined` when the lookup misses or no selection
prop is given, the empty string when `selectedValue` is the falsy empty
selection (the `&&` chain returns it), or the looked-up number. -/
inductive ColorValueArg where
  | undef : ColorValueArg
  | emptyStr : ColorValueArg
  | num : Rat → ColorValueArg

/-- `ToNumber` coercion applied by `Math.min` to the color value (the
empty string coerces to 0; `undefined` would be NaN but is filtered by
the guard in `MeshCell`). -/
def cvToNumber : ColorValueArg → JNum
  | .undef => .nan
  | .emptyStr => .fin 0
  | .num q => .fin q

/-- A mesh entry (Scene.tsx `MeshData`): cell size `dx`, plane normal and
the cell-center points. -/
structure MeshData where
  dx : Rat
  normal : Rat × Rat × Rat
  points : List (Rat × Rat)
deriving DecidableEq

/-- The fill of one rendered mesh cell: a CSS color string and an opacity. -/
structure CellFill where
  color : String
  alpha : Rat
deriving DecidableEq

/-- The fallback fill of `MeshCell` (Scene.tsx line 67): the color named
pink at full opacity. -/
def pinkFill : CellFill := ⟨"pink", 1⟩

/-- The `ValueOnMesh` snapshot: field name to mesh name to per-point
scalars. -/
abbrev VOM := List (String × List (String × List Rat))

/-- The normalization pipeline of `MeshCell` (Scene.tsx lines 71-72):
clamp the value into the range, then divide the offset by the range
width. When min equals max this is 0/0, which is NaN. -/
def clampedNorm (mn mx v : JNum) : JNum :=
  jnDiv (jnSub (jnMax mn (jnMin mx v)) mn) (jnSub mx mn)

/-- The channel computation of `MeshCell` (Scene.tsx lines 74-85):
blue-to-white for normalized below one half, white-to-red above. -/
def meshCellRGB (normalized : JNum) : JNum × JNum × JNum :=
  if jnLtB normalized (.fin (1/2)) then
    (jnFloor (jnMul (.fin 255) (jnMul normalized (.fin 2))),
     jnFloor (jnMul (.fin 255) (jnMul normalized (.fin 2))),
     .fin 255)
  else
    (.fin 255,
     jnFloor (jnMul (.fin 255) (jnSub (.fin 1) (jnMul (jnSub normalized (.fin (1/2))) (.fin 2)))),
     jnFloor (jnMul (.fin 255) (jnSub (.fin 1) (jnMul (jnSub normalized (.fin (1/2))) (.fin 2)))))

/-- The `color` memo of `MeshCell` (Scene.tsx lines 65-91): pink at alpha
1.0 when the color value is `undefined` or no range is available,
otherwise the diverging blue-white-red map at alpha 0.7. -/
def meshCellColor (cv : ColorValueArg) (vr : Option (JNum × JNum)) : CellFill :=
  match cv, vr with
  | .undef, _ => pinkFill
  | _, none => pinkFill
  | other, some (mn, mx) =>
    let rgb := meshCellRGB (clampedNorm mn mx (cvToNumber other))
    ⟨"rgb(" ++ jnumToStr rgb.1 ++ ", " ++ jnumToStr rgb.2.1 ++ ", " ++ jnumToStr rgb.2.2 ++ ")",
     7/10⟩

/-- The `valueRange` memo of `Scene` (Scene.tsx lines 136-145):
`undefined` when no field is selected (absent or empty-string selection)
or the selected field is missing from `ValueOnMesh`; otherwise the min
and max of all values of that field flattened across all meshes. -/
def sceneValueRange (sel : Option String) (vom : VOM) : Option (JNum × JNum) :=
  match sel with
  | none => none
  | some s =>
    if s = "" then none
    else
      match alget vom s with
      | none => none
      | some perMesh =>
        some (jsMinSpread (perMesh.map Prod.snd).flatten, jsMaxSpread (perMesh.map Prod.snd).flatten)

/-- The `colorValue` expression of `Scene` (line 157) for mesh `meshKey`
and point index `i`. -/
def cellColorValue (sel : Option String) (vom : VOM) (meshKey : String) (i : Nat) : ColorValueArg :=
  match sel with
  | none => .undef
  | some s =>
    if s = "" then .emptyStr
    else
      match alget vom s with
      | none => .undef
      | some perMesh =>
        match alget perMesh meshKey with
        | none => .undef
        | some vals =>
          match vals.get? i with
          | none => .undef
          | some q => .num q

/-- A visibility lookup (`visibility.name`, falsy when absent). -/
def getVis (vis : List (String × Bool)) (k : String) : Bool := (alget vis k).getD false

/-- One rendered mesh cell of the scene description. -/
structure SceneCell where
  meshName : String
  index : Nat
  center : Rat × Rat
  dx : Rat
  fill : Option CellFill
  wireframe : Bool
deriving DecidableEq

/-- The mesh-cell part of `Scene` (Scene.tsx lines 154-172): one cell per
mesh point; the fill plane is emitted when the values layer is visible and
a `selectedValue` prop is present (`selectedValue !== undefined`), colored
through `MeshCell`; the wireframe flag follows `visibility.wireframe`. -/
def sceneCells (mesh : List (String × MeshData)) (vom : VOM) (vis : List (String × Bool))
    (sel : Option String) : List SceneCell :=
  let vr := sceneValueRange sel vom
  (mesh.map (fun m =>
    m.2.points.enum.map (fun ip =>
      ⟨m.1, ip.1, ip.2, m.2.dx,
       if getVis vis "values" && sel.isSome then
         some (meshCellColor (cellColorValue sel vom m.1 ip.1) vr)
       else none,
       getVis vis "wireframe"⟩))).flatten

theorem mem_sceneCells (mesh : List (String × MeshData)) (vom : VOM)
    (vis : List (String × Bool)) (sel : Option String) (c : SceneCell) :
    c ∈ sceneCells mesh vom vis sel ↔
    ∃ m ∈ mesh, ∃ ip ∈ m.2.points.enum,
      c = ⟨m.1, ip.1, ip.2, m.2.dx,
           if getVis vis "values" && sel.isSome then
             some (meshCellColor (cellColorValue sel vom m.1 ip.1) (sceneValueRange sel vom))
           else none,
           getVis vis "wireframe"⟩ := by
  simp only [sceneCells, List.mem_flatten, List.mem_map]
  constructor
  · rintro ⟨l, ⟨m, hm, rfl⟩, hc⟩
    simp only [List.mem_map] at hc
    obtain ⟨ip, hip, rfl⟩ := hc
    exact ⟨m, hm, ip, hip, rfl⟩
  · rintro ⟨m, hm, ip, hip, rfl⟩
    exact ⟨_, ⟨m, hm, rfl⟩, List.mem_map.mpr ⟨ip, hip, rfl⟩⟩

/-- C2 counterexample: with the empty (None) selection and the values
layer visible, the one cell of a one-point mesh is rendered with the
opaque pink fallback fill (alpha 1), not with a zero-opacity fill. -/
theorem no_selection_counterexample :
    sceneCells [("m", ⟨1, (0, 0, 1), [(0, 0)]⟩)] []
        [("wireframe", true), ("values", true)] (some "") =
      [⟨"m", 0, (0, 0), 1, some pinkFill, true⟩] ∧
    pinkFill.alpha = 1 ∧ ((1 : Rat) = 0 → False) :=
  ⟨rfl, rfl, fun h => by norm_num at h⟩

/-- C2 (amended): when the selection prop is absent no fill plane is
emitted at all; when the selection is the empty string (the None option
of the controls), every cell whose values layer is visible gets the fixed
opaque pink fallback fill rather than a zero-opacity fill. -/
theorem no_selection_fill (mesh : List (String × MeshData)) (vom : VOM)
    (vis : List (String × Bool)) :
    (∀ c ∈ sceneCells mesh vom vis none, c.fill = none) ∧
    (∀ c ∈ sceneCells mesh vom vis (some ""),
      c.fill = if getVis vis "values" then some pinkFill else none) := by
  constructor
  · intro c hc
    obtain ⟨m, _, ip, _, rfl⟩ := (mem_sceneCells _ _ _ _ _).mp hc
    simp
  · intro c hc
    obtain ⟨m, _, ip, _, rfl⟩ := (mem_sceneCells _ _ _ _ _).mp hc
    have hvr : sceneValueRange (some "") vom = none := by simp [sceneValueRange]
    have hcv : cellColorValue (some "") vom m.1 ip.1 = .emptyStr := by simp [cellColorValue]
    simp only [hvr, hcv, Option.isSome_some, Bool.and_true]
    by_cases hv : getVis vis "values"
    · simp [hv, meshCellColor]
    · simp [hv]

/-- Witness for C2 (amended) at a one-point mesh with no selection prop. -/
theorem no_selection_fill_witness :
    (⟨"m", 0, (0, 0), 1, none, false⟩ : SceneCell).fill = none :=
  (no_selection_fill [("m", ⟨1, (0, 0, 1), [(0, 0)]⟩)] [] [("values", true)]).1
    ⟨"m", 0, (0, 0), 1, none, false⟩ (by decide)

/-- C3 counterexample: with min = max = 3 and value 5 the color memo
divides zero by zero and emits NaN channels at alpha 0.7 — not a fixed
neutral color with alpha 1.0, and not a guarded normalization. -/
theorem degenerate_range_counterexample :
    meshCellColor (.num 5) (some (.fin 3, .fin 3)) = ⟨"rgb(255, NaN, NaN)", 7/10⟩ ∧
    ((7 : Rat)/10 = 1 → False) :=
  ⟨by with_unfolding_all rfl, fun h => by norm_num at h⟩

/-- C3 (amended): when min = max the normalization is the unguarded
0/0 = NaN; the comparison with one half is then false, so the map takes
the white-to-red branch degenerately and yields rgb(255, NaN, NaN) at
alpha 0.7, for every input value. -/
theorem degenerate_range_nan (v mn : Rat) :
    meshCellColor (.num v) (some (.fin mn, .fin mn)) = ⟨"rgb(255, NaN, NaN)", 7/10⟩ := by
  have h1 : max mn (min mn v) = mn := max_eq_left (min_le_left mn v)
  simp [meshCellColor, clampedNorm, cvToNumber, jnMin, jnMax, h1, jnSub, sub_self, jnDiv,
    meshCellRGB, jnLtB, jnMul, jnFloor, jnumToStr, pinkFill]
  decide

/-- The optional-chained lookup `valueOnMesh?.[field]?.[meshKey]?.[i]`. -/
def vomGet (vom : VOM) (s meshKey : String) (i : Nat) : Option Rat :=
  match alget vom s with
  | none => none
  | some perMesh =>
    match alget perMesh meshKey with
    | none => none
    | some vals => vals.get? i

theorem cellColorValue_undef (vom : VOM) (s meshKey : String) (i : Nat)
    (hs : s ≠ "") (h : vomGet vom s meshKey i = none) :
    cellColorValue (some s) vom meshKey i = .undef := by
  cases hvom : alget vom s with
  | none => simp [cellColorValue, if_neg hs, hvom]
  | some perMesh =>
    cases hpm : alget perMesh meshKey with
    | none => simp [cellColorValue, if_neg hs, hvom, hpm]
    | some vals =>
      have hv : vals.get? i = none := by
        simp only [vomGet, hvom, hpm] at h
        exact h
      rw [List.get?_eq_getElem?] at hv
      simp [cellColorValue, if_neg hs, hvom, hpm, hv]

/-- C9: the projector is a total function of a `ValueOnMesh` shorter than
the mesh's points: it emits exactly one cell per mesh point (no
out-of-bounds access, no exception), and any cell whose index has no
value falls back to the default pink fill when the values layer is shown. -/
theorem short_values_degrade (mesh : List (String × MeshData)) (vom : VOM)
    (vis : List (String × Bool)) (s : String) :
    (sceneCells mesh vom vis (some s)).length =
      (mesh.map (fun m => m.2.points.length)).sum ∧
    (∀ c ∈ sceneCells mesh vom vis (some s),
      s ≠ "" → vomGet vom s c.meshName c.index = none → getVis vis "values" = true →
      c.fill = some pinkFill) := by
  constructor
  · simp only [sceneCells, List.length_flatten, List.map_map]
    refine congrArg List.sum (List.map_congr_left ?_)
    intro m _
    simp
  · intro c hc hs hnone hv
    obtain ⟨m, _, ip, _, rfl⟩ := (mem_sceneCells _ _ _ _ _).mp hc
    simp only at hnone
    simp only [hv, Option.isSome_some, Bool.and_true, Bool.and_self, if_true,
      cellColorValue_undef vom s m.1 ip.1 hs hnone]
    simp [meshCellColor]

/-- Witness for C9: a two-point mesh with a single temp value; the second
cell has no value and gets the pink fallback fill. -/
theorem short_values_degrade_witness :
    (⟨"m", 1, (1, 0), 1, some pinkFill, true⟩ : SceneCell).fill = some pinkFill :=
  (short_values_degrade [("m", ⟨1, (0, 0, 1), [(0, 0), (1, 0)]⟩)]
      [("temp", [("m", [10])])] [("wireframe", true), ("values", true)] "temp").2
    ⟨"m", 1, (1, 0), 1, some pinkFill, true⟩
    (by with_unfolding_all (exact List.Mem.tail _ (List.Mem.head _))) (by decide) rfl rfl

theorem foldl_jnMin_fin (xs : List Rat) :
    ∀ a : Rat, xs.foldl (fun acc x => jnMin acc (.fin x)) (.fin a) = .fin (xs.foldl min a) := by
  induction xs with
  | nil => intro a; rfl
  | cons x t ih => intro a; simp only [List.foldl, jnMin]; exact ih (min a x)

theorem foldl_jnMax_fin (xs : List Rat) :
    ∀ a : Rat, xs.foldl (fun acc x => jnMax acc (.fin x)) (.fin a) = .fin (xs.foldl max a) := by
  induction xs with
  | nil => intro a; rfl
  | cons x t ih => intro a; simp only [List.foldl, jnMax]; exact ih (max a x)

theorem jsMinSpread_cons (x : Rat) (xs : List Rat) :
    jsMinSpread (x :: xs) = .fin (xs.foldl min x) := by
  simp only [jsMinSpread, List.foldl, jnMin]
  exact foldl_jnMin_fin xs x

theorem jsMaxSpread_cons (x : Rat) (xs : List Rat) :
    jsMaxSpread (x :: xs) = .fin (xs.foldl max x) := by
  simp only [jsMaxSpread, List.foldl, jnMax]
  exact foldl_jnMax_fin xs x

theorem foldl_min_le_start (xs : List Rat) : ∀ a : Rat, xs.foldl min a ≤ a := by
  induction xs with
  | nil => intro a; exact le_refl a
  | cons x t ih => intro a; exact le_trans (ih (min a x)) (min_le_left a x)

theorem foldl_min_le_mem (xs : List Rat) :
    ∀ (a b : Rat), b ∈ xs → xs.foldl min a ≤ b := by
  induction xs with
  | nil => intro a b hb; simp at hb
  | cons x t ih =>
    intro a b hb
    rcases List.mem_cons.mp hb with rfl | hbt
    · exact le_trans (foldl_min_le_start t (min a b)) (min_le_right a b)
    · exact ih (min a x) b hbt

theorem foldl_min_mem (xs : List Rat) :
    ∀ a : Rat, xs.foldl min a = a ∨ xs.foldl min a ∈ xs := by
  induction xs with
  | nil => intro a; exact Or.inl rfl
  | cons x t ih =>
    intro a
    rcases ih (min a x) with h | h
    · rcases min_choice a x with hm | hm
      · exact Or.inl (by rw [List.foldl, h, hm])
      · exact Or.inr (by rw [List.foldl, h, hm]; exact List.mem_cons_self x t)
    · exact Or.inr (List.mem_cons_of_mem x h)

theorem foldl_max_ge_start (xs : List Rat) : ∀ a : Rat, a ≤ xs.foldl max a := by
  induction xs with
  | nil => intro a; exact le_refl a
  | cons x t ih => intro a; exact le_trans (le_max_left a x) (ih (max a x))

theorem foldl_max_ge_mem (xs : List Rat) :
    ∀ (a b : Rat), b ∈ xs → b ≤ xs.foldl max a := by
  induction xs with
  | nil => intro a b hb; simp at hb
  | cons x t ih =>
    intro a b hb
    rcases List.mem_cons.mp hb with rfl | hbt
    · exact le_trans (le_max_right a b) (foldl_max_ge_start t (max a b))
    · exact ih (max a x) b hbt

theorem foldl_max_mem (xs : List Rat) :
    ∀ a : Rat, xs.foldl max a = a ∨ xs.foldl max a ∈ xs := by
  induction xs with
  | nil => intro a; exact Or.inl rfl
  | cons x t ih =>
    intro a
    rcases ih (max a x) with h | h
    · rcases max_choice a x with hm | hm
      · exact Or.inl (by rw [List.foldl, h, hm])
      · exact Or.inr (by rw [List.foldl, h, hm]; exact List.mem_cons_self x t)
    · exact Or.inr (List.mem_cons_of_mem x h)

/-- C6: the value range is global. General part: for a nonempty selected
field the computed range is the minimum and maximum over the flatten of
the per-mesh value arrays of that field across all meshes — one scale for
every mesh. Scenario part: for temp = [10, 20, 30] on a 3-point mesh the
three cells render blue, white (the middle cell, value 20) and red. -/
theorem global_range_and_white_mid :
    (∀ (s : String) (vom : VOM) (perMesh : List (String × List Rat)) (x : Rat) (xs : List Rat),
      s ≠ "" → alget vom s = some perMesh →
      (perMesh.map Prod.snd).flatten = x :: xs →
      ∃ m M : Rat, sceneValueRange (some s) vom = some (.fin m, .fin M) ∧
        m ∈ x :: xs ∧ M ∈ x :: xs ∧
        (∀ y ∈ x :: xs, m ≤ y ∧ y ≤ M)) ∧
    (sceneCells [("region1", ⟨1, (0, 0, 1), [(0, 0), (1, 0), (2, 0)]⟩)]
        [("temp", [("region1", [10, 20, 30])])]
        [("wireframe", true), ("values", true)] (some "temp")).map (fun c => c.fill) =
      [some ⟨"rgb(0, 0, 255)", 7/10⟩, some ⟨"rgb(255, 255, 255)", 7/10⟩,
       some ⟨"rgb(255, 0, 0)", 7/10⟩] := by
  constructor
  · intro s vom perMesh x xs hs hget hflat
    refine ⟨xs.foldl min x, xs.foldl max x, ?_, ?_, ?_, ?_⟩
    · simp only [sceneValueRange, if_neg hs, hget, hflat, jsMinSpread_cons, jsMaxSpread_cons]
    · rcases foldl_min_mem xs x with h | h
      · rw [h]; exact List.mem_cons_self x xs
      · exact List.mem_cons_of_mem x h
    · rcases foldl_max_mem xs x with h | h
      · rw [h]; exact List.mem_cons_self x xs
      · exact List.mem_cons_of_mem x h
    · intro y hy
      rcases List.mem_cons.mp hy with rfl | hyt
      · exact ⟨foldl_min_le_start xs y, foldl_max_ge_start xs y⟩
      · exact ⟨foldl_min_le_mem xs x y hyt, foldl_max_ge_mem xs x y hyt⟩
  · with_unfolding_all rfl

/-- Witness for C6 at the temp scenario data. -/
theorem global_range_and_white_mid_witness :
    ∃ m M : Rat, sceneValueRange (some "temp") [("temp", [("region1", [10, 20, 30])])] =
        some (.fin m, .fin M) ∧
      m ∈ [(10 : Rat), 20, 30] ∧ M ∈ [(10 : Rat), 20, 30] ∧
      (∀ y ∈ [(10 : Rat), 20, 30], m ≤ y ∧ y ≤ M) :=
  global_range_and_white_mid.1 "temp" [("temp", [("region1", [10, 20, 30])])]
    [("region1", [10, 20, 30])] 10 [20, 30] (by decide) rfl rfl

theorem clampedNorm_fin (mn mx v : Rat) (h : mn < mx) :
    clampedNorm (.fin mn) (.fin mx) (.fin v) = .fin ((max mn (min mx v) - mn) / (mx - mn)) := by
  have hne : mx - mn ≠ 0 := sub_ne_zero.mpr (ne_of_gt h)
  simp [clampedNorm, jnMin, jnMax, jnSub, jnDiv, hne]

theorem meshCellRGB_lt (t : Rat) (h : t < 1/2) :
    meshCellRGB (.fin t) = (.fin ((⌊(255 : Rat) * (t * 2)⌋ : Int) : Rat),
      .fin ((⌊(255 : Rat) * (t * 2)⌋ : Int) : Rat), .fin 255) := by
  have hb : jnLtB (.fin t) (.fin (1/2)) = true := by
    simp only [jnLtB, decide_eq_true_eq]
    exact h
  simp only [meshCellRGB, hb, if_true]
  simp [jnMul, jnFloor]

theorem meshCellRGB_ge (t : Rat) (h : ¬ t < 1/2) :
    meshCellRGB (.fin t) = (.fin 255,
      .fin ((⌊(255 : Rat) * (1 - (t - 1/2) * 2)⌋ : Int) : Rat),
      .fin ((⌊(255 : Rat) * (1 - (t - 1/2) * 2)⌋ : Int) : Rat)) := by
  have hb : jnLtB (.fin t) (.fin (1/2)) = false := by
    simp only [jnLtB, decide_eq_false_iff_not]
    exact h
  simp only [meshCellRGB, hb, Bool.false_eq_true, if_false]
  simp [jnMul, jnSub, jnFloor]

/-- A finite integer channel value inside the valid rgb range 0..255. -/
def channelInRange (c : JNum) : Prop :=
  ∃ r : Int, c = .fin (r : Rat) ∧ 0 ≤ r ∧ r ≤ 255

/-- C7: for min strictly below max the cell color map keeps alpha at 0.7
(inside the unit interval), produces integer channels inside 0..255,
clamps its input into the range before normalizing, and maps min to pure
blue, the midpoint to white and max to pure red. -/
theorem color_map_contract (mn mx v : Rat) (h : mn < mx) :
    (meshCellColor (.num v) (some (.fin mn, .fin mx))).alpha = 7/10 ∧
    ((0 : Rat) ≤ 7/10 ∧ (7 : Rat)/10 ≤ 1) ∧
    channelInRange (meshCellRGB (clampedNorm (.fin mn) (.fin mx) (.fin v))).1 ∧
    channelInRange (meshCellRGB (clampedNorm (.fin mn) (.fin mx) (.fin v))).2.1 ∧
    channelInRange (meshCellRGB (clampedNorm (.fin mn) (.fin mx) (.fin v))).2.2 ∧
    meshCellColor (.num v) (some (.fin mn, .fin mx)) =
      meshCellColor (.num (max mn (min mx v))) (some (.fin mn, .fin mx)) ∧
    meshCellColor (.num mn) (some (.fin mn, .fin mx)) = ⟨"rgb(0, 0, 255)", 7/10⟩ ∧
    meshCellColor (.num ((mn + mx)/2)) (some (.fin mn, .fin mx)) =
      ⟨"rgb(255, 255, 255)", 7/10⟩ ∧
    meshCellColor (.num mx) (some (.fin mn, .fin mx)) = ⟨"rgb(255, 0, 0)", 7/10⟩ := by
  have hd : (0 : Rat) < mx - mn := sub_pos.mpr h
  have hne : mx - mn ≠ 0 := ne_of_gt hd
  have ht0 : 0 ≤ (max mn (min mx v) - mn) / (mx - mn) :=
    div_nonneg (sub_nonneg.mpr (le_max_left mn _)) hd.le
  have ht1 : (max mn (min mx v) - mn) / (mx - mn) ≤ 1 :=
    (div_le_one hd).mpr (sub_le_sub_right (max_le h.le (min_le_left mx v)) mn)
  have hchan : channelInRange (meshCellRGB (clampedNorm (.fin mn) (.fin mx) (.fin v))).1 ∧
      channelInRange (meshCellRGB (clampedNorm (.fin mn) (.fin mx) (.fin v))).2.1 ∧
      channelInRange (meshCellRGB (clampedNorm (.fin mn) (.fin mx) (.fin v))).2.2 := by
    rw [clampedNorm_fin mn mx v h]
    set t := (max mn (min mx v) - mn) / (mx - mn) with htdef
    have h255 : channelInRange (.fin 255) := ⟨255, by norm_num⟩
    by_cases hlt : t < 1/2
    · rw [meshCellRGB_lt t hlt]
      have hx0 : (0 : Rat) ≤ 255 * (t * 2) := by nlinarith
      have hx255 : (255 : Rat) * (t * 2) ≤ 255 := by nlinarith
      have hr0 : (0 : Int) ≤ ⌊(255 : Rat) * (t * 2)⌋ := Int.floor_nonneg.mpr hx0
      have hr255 : ⌊(255 : Rat) * (t * 2)⌋ ≤ 255 := by
        have hle : ((⌊(255 : Rat) * (t * 2)⌋ : Int) : Rat) ≤ 255 :=
          le_trans (Int.floor_le _) hx255
        exact_mod_cast hle
      exact ⟨⟨_, rfl, hr0, hr255⟩, ⟨_, rfl, hr0, hr255⟩, h255⟩
    · rw [meshCellRGB_ge t hlt]
      have hge : (1 : Rat)/2 ≤ t := not_lt.mp hlt
      have hx0 : (0 : Rat) ≤ 255 * (1 - (t - 1/2) * 2) := by nlinarith
      have hx255 : (255 : Rat) * (1 - (t - 1/2) * 2) ≤ 255 := by nlinarith
      have hr0 : (0 : Int) ≤ ⌊(255 : Rat) * (1 - (t - 1/2) * 2)⌋ := Int.floor_nonneg.mpr hx0
      have hr255 : ⌊(255 : Rat) * (1 - (t - 1/2) * 2)⌋ ≤ 255 := by
        have hle : ((⌊(255 : Rat) * (1 - (t - 1/2) * 2)⌋ : Int) : Rat) ≤ 255 :=
          le_trans (Int.floor_le _) hx255
        exact_mod_cast hle
      exact ⟨h255, ⟨_, rfl, hr0, hr255⟩, ⟨_, rfl, hr0, hr255⟩⟩
  have hclamp : meshCellColor (.num v) (some (.fin mn, .fin mx)) =
      meshCellColor (.num (max mn (min mx v))) (some (.fin mn, .fin mx)) := by
    have h1 : mn ≤ max mn (min mx v) := le_max_left _ _
    have h2 : max mn (min mx v) ≤ mx := max_le h.le (min_le_left _ _)
    have hcc : max mn (min mx (max mn (min mx v))) = max mn (min mx v) := by
      rw [min_eq_right h2, max_eq_right h1]
    simp only [meshCellColor, cvToNumber]
    rw [clampedNorm_fin mn mx v h, clampedNorm_fin mn mx (max mn (min mx v)) h, hcc]
  have hmin : clampedNorm (.fin mn) (.fin mx) (.fin mn) = .fin 0 := by
    rw [clampedNorm_fin mn mx mn h]
    rw [min_eq_right h.le, max_self, sub_self, zero_div]
  have hmid : clampedNorm (.fin mn) (.fin mx) (.fin ((mn + mx)/2)) = .fin (1/2) := by
    rw [clampedNorm_fin mn mx ((mn + mx)/2) h]
    rw [min_eq_right (by linarith), max_eq_right (by linarith)]
    have hq : ((mn + mx)/2 - mn) / (mx - mn) = 1/2 := by
      field_simp
      ring
    rw [hq]
  have hmax : clampedNorm (.fin mn) (.fin mx) (.fin mx) = .fin 1 := by
    rw [clampedNorm_fin mn mx mx h]
    rw [min_self, max_eq_right h.le, div_self hne]
  refine ⟨by simp [meshCellColor], ⟨by norm_num, by norm_num⟩,
    hchan.1, hchan.2.1, hchan.2.2, hclamp, ?_, ?_, ?_⟩
  · simp only [meshCellColor, cvToNumber]
    rw [hmin]
    with_unfolding_all rfl
  · simp only [meshCellColor, cvToNumber]
    rw [hmid]
    with_unfolding_all rfl
  · simp only [meshCellColor, cvToNumber]
    rw [hmax]
    with_unfolding_all rfl

/-- Witness for C7 at range 0..10 and value 37 (clamped to 10). -/
theorem color_map_contract_witness :
    (meshCellColor (.num 37) (some (.fin 0, .fin 10))).alpha = 7/10 ∧
    ((0 : Rat) ≤ 7/10 ∧ (7 : Rat)/10 ≤ 1) ∧
    channelInRange (meshCellRGB (clampedNorm (.fin 0) (.fin 10) (.fin 37))).1 ∧
    channelInRange (meshCellRGB (clampedNorm (.fin 0) (.fin 10) (.fin 37))).2.1 ∧
    channelInRange (meshCellRGB (clampedNorm (.fin 0) (.fin 10) (.fin 37))).2.2 ∧
    meshCellColor (.num 37) (some (.fin 0, .fin 10)) =
      meshCellColor (.num (max 0 (min 10 37))) (some (.fin 0, .fin 10)) ∧
    meshCellColor (.num 0) (some (.fin 0, .fin 10)) = ⟨"rgb(0, 0, 255)", 7/10⟩ ∧
    meshCellColor (.num ((0 + 10)/2)) (some (.fin 0, .fin 10)) =
      ⟨"rgb(255, 255, 255)", 7/10⟩ ∧
    meshCellColor (.num 10) (some (.fin 0, .fin 10)) = ⟨"rgb(255, 0, 0)", 7/10⟩ :=
  color_map_contract 0 10 37 (by norm_num)
